import Mathlib

/-!
Verification of the Workload Placement and Request Routing Engine specified
for the agentic Docker offload showcase, together with the embedded
inference-coordinator application shipped inside the blog content
(src/src/components/CodeBlock.tsx).  The routing engine itself exists in the
repository only as declarative configuration (src/docker-offload.yml) plus a
prose specification, so its operations are modelled from the spec; the
coordinator handlers are embedded from the Python application text.
-/

namespace Offload

/-- Modelled from the spec: health state of an execution target (section 3,
Target), with values Healthy, Degraded, Unreachable. -/
inductive Health
  | healthy
  | degraded
  | unreachable
deriving DecidableEq

/-- Modelled from the spec: an execution target and its live attributes
(section 3, Target).  Latency is in milliseconds, utilizations in percent,
gpu memory in Gi, cost per hour in cents. -/
structure Target where
  name : String
  cpu_utilization : Nat
  gpu_memory_available : Nat
  latency : Nat
  current_utilization : Nat
  cost_per_hour : Nat
  health : Health
deriving DecidableEq

/-- Modelled from the spec: the metric names an AdmissionCondition may
reference (section 3, AdmissionCondition; examples in docker-offload.yml). -/
inductive Metric
  | cpu_utilization
  | gpu_memory_available
  | latency
deriving DecidableEq

/-- Modelled from the spec: the comparator of an AdmissionCondition. -/
inductive Cmp
  | lt
  | le
  | ge
  | gt
deriving DecidableEq

/-- Modelled from the spec: a (metric, comparator, threshold) triple evaluated
against the live attributes of a target (section 3, AdmissionCondition). -/
structure AdmissionCondition where
  metric : Metric
  cmp : Cmp
  threshold : Nat
deriving DecidableEq

/-- Modelled from the spec: read the live attribute a metric refers to. -/
def metricValue (t : Target) : Metric → Nat
  | .cpu_utilization => t.cpu_utilization
  | .gpu_memory_available => t.gpu_memory_available
  | .latency => t.latency

/-- Modelled from the spec: evaluate one admission condition against a target. -/
def evalCondition (t : Target) (c : AdmissionCondition) : Bool :=
  match c.cmp with
  | .lt => decide (metricValue t c.metric < c.threshold)
  | .le => decide (metricValue t c.metric ≤ c.threshold)
  | .ge => decide (c.threshold ≤ metricValue t c.metric)
  | .gt => decide (c.threshold < metricValue t c.metric)

/-- Modelled from the spec: one placement rule of a service policy (section 3,
ServicePolicy): target reference, priority (lower tried first), admission
conditions, optional cost threshold.  The resource requirement profile of the
rule does not influence any claim and is omitted. -/
structure PlacementRule where
  target : String
  priority : Nat
  conditions : List AdmissionCondition
  cost_threshold : Option Nat
deriving DecidableEq

/-- Modelled from the spec: a service policy, keyed by service name, holding
the ordered placement rules (section 3). -/
structure ServicePolicy where
  name : String
  placement : List PlacementRule
deriving DecidableEq

/-- Modelled from the spec: the load balancing strategy of GlobalRouting. -/
inductive Strategy
  | round_robin
  | least_loaded
deriving DecidableEq

/-- Modelled from the spec: the global routing settings (section 3,
GlobalRouting; values in docker-offload.yml under spec.routing). -/
structure GlobalRouting where
  latency_threshold : Nat
  cost_optimization : Bool
  auto_scaling : Bool
  load_balancing : Strategy
deriving DecidableEq

/-- Modelled from the spec: the policy document, services plus global routing
settings (docker-offload.yml). -/
structure PolicyDoc where
  services : List ServicePolicy
  routing : GlobalRouting
deriving DecidableEq

/-- Modelled from the spec: rulesFor of the Policy Store (section 4.3). -/
def rulesFor (P : PolicyDoc) (svc : String) : List PlacementRule :=
  match P.services.find? (fun s => s.name == svc) with
  | some s => s.placement
  | none => []

/-- Modelled from the spec: get of the Target Registry (section 4.1), looking
up a target by name. -/
def lookupTarget (reg : List Target) (n : String) : Option Target :=
  reg.find? (fun t => t.name == n)

/-- Modelled from the spec: the reason a placement rule is not admissible,
carried inside NoAdmissibleTarget for observability (section 4.4 and 7). -/
inductive FailReason
  | targetNotFound
  | noCapability
  | targetUnreachable
  | conditionFailed (c : AdmissionCondition)
  | costExceeded (threshold : Nat)
deriving DecidableEq

/-- Modelled from the spec: evaluate one rule (section 4.4).  Admissibility is
capability present, target health not Unreachable, all admission conditions
hold, and, when cost optimization is enabled and the rule sets a cost
threshold, cost per hour within the threshold.  Returns none when admissible,
or the first failing check. -/
def evalRule (reg : List Target) (supports : String → String → Bool)
    (g : GlobalRouting) (svc : String) (r : PlacementRule) : Option FailReason :=
  match lookupTarget reg r.target with
  | none => some .targetNotFound
  | some t =>
    if !(supports r.target svc) then some .noCapability
    else if t.health = .unreachable then some .targetUnreachable
    else
      match r.conditions.find? (fun c => !(evalCondition t c)) with
      | some c => some (.conditionFailed c)
      | none =>
        if g.cost_optimization then
          match r.cost_threshold with
          | some th => if decide (th < t.cost_per_hour) then some (.costExceeded th) else none
          | none => none
        else none

/-- Modelled from the spec: a rule is admissible when no check fails. -/
def admissibleRule (reg : List Target) (supports : String → String → Bool)
    (g : GlobalRouting) (svc : String) (r : PlacementRule) : Bool :=
  (evalRule reg supports g svc r).isNone

/-- Modelled from the spec: the tie-break key of the configured load balancing
strategy (section 4.4): a round-robin cursor per service rotating the
declaration order, or least-loaded by current utilization. -/
def tieKey (reg : List Target) (g : GlobalRouting) (cursor n : Nat)
    (ir : Nat × PlacementRule) : Nat :=
  match g.load_balancing with
  | .round_robin => if n = 0 then ir.1 else (ir.1 + (n - cursor % n)) % n
  | .least_loaded =>
    match lookupTarget reg ir.2.target with
    | some t => t.current_utilization
    | none => 0

/-- Lexicographic order on sort key triples. -/
def keyLE (a b : Nat × Nat × Nat) : Bool :=
  decide (a.1 < b.1) ||
    (decide (a.1 = b.1) &&
      (decide (a.2.1 < b.2.1) ||
        (decide (a.2.1 = b.2.1) && decide (a.2.2 ≤ b.2.2))))

/-- Modelled from the spec: the full sort key of an indexed placement rule,
priority first, then the tie-break key, then declaration order. -/
def ruleKey (reg : List Target) (g : GlobalRouting) (cursor n : Nat)
    (ir : Nat × PlacementRule) : Nat × Nat × Nat :=
  (ir.2.priority, tieKey reg g cursor n ir, ir.1)

/-- Rule comparison used for ranking: compare full sort keys. -/
def ruleLE (reg : List Target) (g : GlobalRouting) (cursor n : Nat)
    (a b : Nat × PlacementRule) : Prop :=
  keyLE (ruleKey reg g cursor n a) (ruleKey reg g cursor n b) = true

instance (reg : List Target) (g : GlobalRouting) (cursor n : Nat) :
    DecidableRel (ruleLE reg g cursor n) := fun _ _ => by
  unfold ruleLE
  infer_instance

/-- Attach declaration indices to the rules of a service. -/
def indexRules (rs : List PlacementRule) : List (Nat × PlacementRule) :=
  rs.enum

/-- Modelled from the spec: the rules of a service in evaluation order,
priority first, ties by the configured strategy (section 4.4). -/
def sortedRules (P : PolicyDoc) (reg : List Target) (g : GlobalRouting)
    (cursor : Nat) (svc : String) : List (Nat × PlacementRule) :=
  let rs := indexRules (rulesFor P svc)
  List.insertionSort (ruleLE reg g cursor rs.length) rs

/-- Modelled from the spec: the admissible rules in evaluation order. -/
def rankRules (P : PolicyDoc) (reg : List Target)
    (supports : String → String → Bool) (g : GlobalRouting) (cursor : Nat)
    (svc : String) : List (Nat × PlacementRule) :=
  (sortedRules P reg g cursor svc).filter
    (fun ir => admissibleRule reg supports g svc ir.2)

/-- Modelled from the spec: the same ranking pipeline when one target has been
made inadmissible (used to state the stability property of section 8). -/
def rankRulesExcluding (P : PolicyDoc) (reg : List Target)
    (supports : String → String → Bool) (g : GlobalRouting) (cursor : Nat)
    (svc : String) (excl : String) : List (Nat × PlacementRule) :=
  (sortedRules P reg g cursor svc).filter
    (fun ir => admissibleRule reg supports g svc ir.2 && !(ir.2.target == excl))

/-- Resolve admissible rules to the targets they reference. -/
def resolveTargets (reg : List Target) (l : List (Nat × PlacementRule)) :
    List Target :=
  l.filterMap (fun ir => lookupTarget reg ir.2.target)

/-- Modelled from the spec: among the lower-ranked admissible targets, the
cheapest one whose projected latency stays under the threshold (leftmost on
cost ties); none when every one of them is at or above the threshold. -/
def cheapestUnder (threshold : Nat) : List Target → Option Target
  | [] => none
  | t :: rest =>
    match cheapestUnder threshold rest with
    | none => if decide (t.latency < threshold) then some t else none
    | some u =>
      if decide (t.latency < threshold) && decide (t.cost_per_hour ≤ u.cost_per_hour) then
        some t
      else some u

/-- Modelled from the spec: the cost and latency trade-off of section 4.4.
When cost optimization is enabled and the cost of the top ranked admissible
target exceeds the cost of every other admissible target, prefer the cheapest
other target whose latency stays under the global latency threshold; latency
is a hard ceiling and is never traded away. -/
def costAdjust (g : GlobalRouting) : List Target → List Target
  | [] => []
  | [t] => [t]
  | t :: u :: rest =>
    let others := u :: rest
    if g.cost_optimization &&
        others.all (fun v => decide (v.cost_per_hour < t.cost_per_hour)) then
      match cheapestUnder g.latency_threshold others with
      | some c => c :: t :: others.erase c
      | none => t :: others
    else t :: others

/-- Modelled from the spec: one entry of the NoAdmissibleTarget diagnostic,
a rule that was evaluated together with the check that failed for it. -/
structure RuleFailure where
  rule : PlacementRule
  reason : FailReason
deriving DecidableEq

/-- Modelled from the spec: the NoAdmissibleTarget error (sections 4.4, 7),
carrying the rules evaluated and the condition each failed. -/
structure NoAdmissibleTarget where
  service : String
  failures : List RuleFailure
deriving DecidableEq

/-- Collect the failure diagnostics of the rules that are not admissible. -/
def ruleFailures (reg : List Target) (supports : String → String → Bool)
    (g : GlobalRouting) (svc : String) (l : List (Nat × PlacementRule)) :
    List RuleFailure :=
  l.filterMap (fun ir =>
    (evalRule reg supports g svc ir.2).map (fun reason => ⟨ir.2, reason⟩))

/-- Modelled from the spec: rank of the Placement Decision Engine
(section 4.4).  Rules are evaluated in priority order with the configured
tie-break; the admissible targets are emitted in that order, after the cost
and latency trade-off; when no rule is admissible it fails with
NoAdmissibleTarget carrying the per-rule diagnostics. -/
def rank (P : PolicyDoc) (reg : List Target)
    (supports : String → String → Bool) (g : GlobalRouting) (cursor : Nat)
    (svc : String) : Except NoAdmissibleTarget (List Target) :=
  let adm := rankRules P reg supports g cursor svc
  if adm.isEmpty then
    .error ⟨svc, ruleFailures reg supports g svc (sortedRules P reg g cursor svc)⟩
  else
    .ok (costAdjust g (resolveTargets reg adm))

/-- Modelled from the spec: the global routing settings of docker-offload.yml,
spec.routing: latency_threshold 100ms, cost_optimization and auto_scaling on,
round robin load balancing. -/
def yamlRouting : GlobalRouting := ⟨100, true, true, .round_robin⟩

/-- Modelled from the spec: the scenario A policy (section 8): service
text_classifier with rules [(edge-compute, priority 1, cpu below 70 percent),
(local, priority 2)], under the global routing of docker-offload.yml. -/
def scenarioAPolicy : PolicyDoc :=
  ⟨[⟨"text_classifier",
      [⟨"edge-compute", 1, [⟨.cpu_utilization, .lt, 70⟩], none⟩,
       ⟨"local", 2, [], none⟩]⟩],
    yamlRouting⟩

/-- Modelled from the spec: scenario A telemetry, the edge target reporting
80 percent cpu utilization, the local target healthy. -/
def scenarioAEdge : Target := ⟨"edge-compute", 80, 0, 20, 80, 10, .healthy⟩

/-- Modelled from the spec: the local target of scenario A. -/
def scenarioALocal : Target := ⟨"local", 10, 0, 5, 10, 0, .healthy⟩

/-- Modelled from the spec: the scenario A target registry. -/
def scenarioARegistry : List Target := [scenarioAEdge, scenarioALocal]

/-- C2: for the scenario A policy, with the edge target reporting cpu
utilization 80 percent, rank for service text_classifier returns exactly the
one-element sequence holding the local target. -/
theorem scenarioA_rank_local :
    rank scenarioAPolicy scenarioARegistry (fun _ _ => true) yamlRouting 0
        "text_classifier" = .ok [scenarioALocal] := by
  rfl

/-- Modelled from the spec: a ranked target as the Dispatcher sees it, its
name together with the configured per-attempt timeout cap (section 4.5). -/
structure RankedTarget where
  name : String
  attemptTimeout : Nat
deriving DecidableEq

/-- Modelled from the spec: the behavior of one dispatch attempt against a
target, the time the call would take and whether it would succeed.  This is
the oracle standing for the network collaborator of section 6. -/
structure Behavior where
  duration : Nat
  ok : Bool
deriving DecidableEq

/-- Modelled from the spec: the outcome recorded for one attempt
(section 3, RequestAttempt). -/
inductive Outcome
  | success
  | timedOut
  | failure
deriving DecidableEq

/-- Modelled from the spec: one entry of the per-target attempt history. -/
structure Attempt where
  target : String
  outcome : Outcome
  startedAt : Nat
  duration : Nat
deriving DecidableEq

/-- Modelled from the spec: the successful result of execute, the result
target and total elapsed time plus the attempt history (section 4.5). -/
structure DispatchSuccess where
  targetUsed : String
  elapsed : Nat
  history : List Attempt
deriving DecidableEq

/-- Modelled from the spec: the RoutingExhausted error, all admissible targets
failed or the deadline was exceeded, carrying the attempt history
(sections 4.5, 7). -/
structure RoutingExhausted where
  history : List Attempt
  elapsed : Nat
deriving DecidableEq

/-- Modelled from the spec: the Dispatcher loop (section 4.5).  Before each
attempt the overall deadline is re-checked; the per-attempt timeout is derived
from the remaining overall deadline; on timeout or failure the outcome is
recorded and the next ranked target is tried; on success the result is
returned with the history; when the ranked list is exhausted or the deadline
is exceeded the request terminates Exhausted. -/
def executeGo (oracle : String → Behavior) (deadline : Nat) :
    List RankedTarget → Nat → List Attempt →
      Except RoutingExhausted DispatchSuccess
  | [], elapsed, hist => .error ⟨hist, elapsed⟩
  | t :: rest, elapsed, hist =>
    if deadline ≤ elapsed then .error ⟨hist, elapsed⟩
    else
      let budget := min t.attemptTimeout (deadline - elapsed)
      let b := oracle t.name
      if budget < b.duration then
        executeGo oracle deadline rest (elapsed + budget)
          (hist ++ [⟨t.name, .timedOut, elapsed, budget⟩])
      else if b.ok then
        .ok ⟨t.name, elapsed + b.duration,
          hist ++ [⟨t.name, .success, elapsed, b.duration⟩]⟩
      else
        executeGo oracle deadline rest (elapsed + b.duration)
          (hist ++ [⟨t.name, .failure, elapsed, b.duration⟩])

/-- Modelled from the spec: execute of the Dispatcher (section 4.5), starting
from zero elapsed time and an empty attempt history. -/
def execute (oracle : String → Behavior) (targets : List RankedTarget)
    (deadline : Nat) : Except RoutingExhausted DispatchSuccess :=
  executeGo oracle deadline targets 0 []

/-- Total elapsed time of a dispatch, successful or exhausted. -/
def execElapsed : Except RoutingExhausted DispatchSuccess → Nat
  | .ok r => r.elapsed
  | .error e => e.elapsed

/-- Attempt history of a dispatch, successful or exhausted. -/
def execHistory : Except RoutingExhausted DispatchSuccess → List Attempt
  | .ok r => r.history
  | .error e => e.history

/-- Largest configured per-attempt timeout of a ranked list. -/
def maxAttemptTimeout (targets : List RankedTarget) : Nat :=
  (targets.map (fun t => t.attemptTimeout)).foldr max 0

theorem executeGo_bounds (oracle : String → Behavior) (deadline : Nat) :
    ∀ (targets : List RankedTarget) (elapsed : Nat) (hist : List Attempt),
      elapsed ≤ deadline →
      (∀ a ∈ hist, a.startedAt < deadline ∧ a.startedAt + a.duration ≤ deadline) →
      execElapsed (executeGo oracle deadline targets elapsed hist) ≤ deadline ∧
      ∀ a ∈ execHistory (executeGo oracle deadline targets elapsed hist),
        a.startedAt < deadline ∧ a.startedAt + a.duration ≤ deadline := by
  intro targets
  induction targets with
  | nil =>
    intro elapsed hist he hh
    exact ⟨he, hh⟩
  | cons t rest ih =>
    intro elapsed hist he hh
    by_cases hd : deadline ≤ elapsed
    · simp only [executeGo, if_pos hd]
      exact ⟨he, hh⟩
    · have helt : elapsed < deadline := Nat.lt_of_not_le hd
      simp only [executeGo, if_neg hd]
      set budget := min t.attemptTimeout (deadline - elapsed) with hbudget
      have hble : elapsed + budget ≤ deadline := by
        have : budget ≤ deadline - elapsed := Nat.min_le_right _ _
        omega
      by_cases hto : budget < (oracle t.name).duration
      · simp only [if_pos hto]
        refine ih (elapsed + budget) _ hble ?_
        intro a ha
        rcases List.mem_append.mp ha with h | h
        · exact hh a h
        · simp only [List.mem_singleton] at h
          subst h
          exact ⟨helt, hble⟩
      · simp only [if_neg hto]
        have hdur : (oracle t.name).duration ≤ budget := Nat.le_of_not_lt hto
        have hdle : elapsed + (oracle t.name).duration ≤ deadline := by omega
        by_cases hok : (oracle t.name).ok
        · simp only [if_pos hok]
          refine ⟨hdle, ?_⟩
          intro a ha
          rcases List.mem_append.mp ha with h | h
          · exact hh a h
          · simp only [List.mem_singleton] at h
            subst h
            exact ⟨helt, hdle⟩
        · simp only [if_neg hok]
          refine ih (elapsed + (oracle t.name).duration) _ hdle ?_
          intro a ha
          rcases List.mem_append.mp ha with h | h
          · exact hh a h
          · simp only [List.mem_singleton] at h
            subst h
            exact ⟨helt, hdle⟩

/-- C5: execute respects the caller-supplied deadline across retries.  The
total time consumed never exceeds the deadline, hence never exceeds it by more
than one in-flight attempt timeout, and every attempt that is started both
starts strictly before the deadline and completes within it, so no attempt is
started that could not complete before the deadline. -/
theorem execute_deadline (oracle : String → Behavior)
    (targets : List RankedTarget) (deadline : Nat) :
    execElapsed (execute oracle targets deadline) ≤ deadline ∧
    execElapsed (execute oracle targets deadline) ≤
      deadline + maxAttemptTimeout targets ∧
    ∀ a ∈ execHistory (execute oracle targets deadline),
      a.startedAt < deadline ∧ a.startedAt + a.duration ≤ deadline := by
  have h := executeGo_bounds oracle deadline targets 0 [] (Nat.zero_le _)
    (by intro a ha; cases ha)
  exact ⟨h.1, Nat.le_trans h.1 (Nat.le_add_right _ _), h.2⟩

/-- Witness for C5: a single ranked target answering in one millisecond under
a deadline of one hundred: its attempt starts before the deadline, completes
within it, and the total elapsed time respects the deadline. -/
theorem execute_deadline_witness :
    (⟨"gpu-cluster", Outcome.success, 0, 1⟩ : Attempt) ∈
      execHistory (execute (fun _ => ⟨1, true⟩) [⟨"gpu-cluster", 10⟩] 100) ∧
    ((⟨"gpu-cluster", Outcome.success, 0, 1⟩ : Attempt).startedAt < 100 ∧
      (⟨"gpu-cluster", Outcome.success, 0, 1⟩ : Attempt).startedAt +
        (⟨"gpu-cluster", Outcome.success, 0, 1⟩ : Attempt).duration ≤ 100) ∧
    execElapsed (execute (fun _ => ⟨1, true⟩) [⟨"gpu-cluster", 10⟩] 100) ≤ 100 :=
  ⟨by decide,
    (execute_deadline (fun _ => ⟨1, true⟩) [⟨"gpu-cluster", 10⟩] 100).2.2 _ (by decide),
    (execute_deadline (fun _ => ⟨1, true⟩) [⟨"gpu-cluster", 10⟩] 100).1⟩

theorem executeGo_allFail (oracle : String → Behavior) (deadline : Nat) :
    ∀ (targets : List RankedTarget) (elapsed : Nat) (hist : List Attempt),
      (∀ t ∈ targets, (oracle t.name).ok = false) →
      elapsed + (targets.map (fun t => (oracle t.name).duration)).sum < deadline →
      (∀ a ∈ hist, a.outcome ≠ Outcome.success) →
      ∃ e, executeGo oracle deadline targets elapsed hist = .error e ∧
        e.history.map Attempt.target =
          hist.map Attempt.target ++ targets.map RankedTarget.name ∧
        ∀ a ∈ e.history, a.outcome ≠ Outcome.success := by
  intro targets
  induction targets with
  | nil =>
    intro elapsed hist _ _ hh
    exact ⟨⟨hist, elapsed⟩, rfl, by simp, hh⟩
  | cons t rest ih =>
    intro elapsed hist hfail hfit hh
    have hsum : elapsed + (oracle t.name).duration +
        (rest.map (fun u => (oracle u.name).duration)).sum < deadline := by
      simp only [List.map_cons, List.sum_cons] at hfit
      omega
    have hd : ¬ deadline ≤ elapsed := by omega
    simp only [executeGo, if_neg hd]
    set budget := min t.attemptTimeout (deadline - elapsed) with hbudget
    have hsingle : ∀ (o : Outcome) (d : Nat), o ≠ Outcome.success →
        ∀ a ∈ hist ++ [⟨t.name, o, elapsed, d⟩], a.outcome ≠ Outcome.success := by
      intro o d ho a ha
      rcases List.mem_append.mp ha with h | h
      · exact hh a h
      · simp only [List.mem_singleton] at h
        subst h
        exact ho
    by_cases hto : budget < (oracle t.name).duration
    · simp only [if_pos hto]
      obtain ⟨e, he, hmap, hns⟩ := ih (elapsed + budget) _
        (fun u hu => hfail u (List.mem_cons_of_mem _ hu))
        (by omega)
        (hsingle Outcome.timedOut budget (by simp))
      refine ⟨e, he, ?_, hns⟩
      rw [hmap]
      simp
    · simp only [if_neg hto]
      have hok : (oracle t.name).ok = false := hfail t (List.mem_cons_self _ _)
      rw [hok]
      simp only [Bool.false_eq_true, if_false]
      obtain ⟨e, he, hmap, hns⟩ := ih (elapsed + (oracle t.name).duration) _
        (fun u hu => hfail u (List.mem_cons_of_mem _ hu))
        (by omega)
        (hsingle Outcome.failure (oracle t.name).duration (by simp))
      refine ⟨e, he, ?_, hns⟩
      rw [hmap]
      simp

theorem executeGo_ok (oracle : String → Behavior) (deadline : Nat) :
    ∀ (targets : List RankedTarget) (elapsed : Nat) (hist : List Attempt)
      (r : DispatchSuccess),
      executeGo oracle deadline targets elapsed hist = .ok r →
      ∃ tail fin, r.history = hist ++ tail ++ [fin] ∧
        fin.outcome = Outcome.success ∧ fin.target = r.targetUsed ∧
        ∀ a ∈ tail, a.outcome ≠ Outcome.success := by
  intro targets
  induction targets with
  | nil =>
    intro elapsed hist r h
    simp only [executeGo] at h
    cases h
  | cons t rest ih =>
    intro elapsed hist r h
    by_cases hd : deadline ≤ elapsed
    · simp only [executeGo, if_pos hd] at h
      cases h
    · simp only [executeGo, if_neg hd] at h
      set budget := min t.attemptTimeout (deadline - elapsed) with hbudget
      by_cases hto : budget < (oracle t.name).duration
      · simp only [if_pos hto] at h
        obtain ⟨tail, fin, hh, hs, htg, hns⟩ := ih _ _ _ h
        refine ⟨⟨t.name, Outcome.timedOut, elapsed, budget⟩ :: tail, fin, ?_, hs, htg, ?_⟩
        · rw [hh]
          simp
        · intro a ha
          rcases List.mem_cons.mp ha with h1 | h1
          · subst h1
            simp
          · exact hns a h1
      · simp only [if_neg hto] at h
        by_cases hok : (oracle t.name).ok
        · simp only [if_pos hok] at h
          cases h
          exact ⟨[], ⟨t.name, Outcome.success, elapsed, (oracle t.name).duration⟩,
            by simp, rfl, rfl, by intro a ha; cases ha⟩
        · simp only [if_neg hok] at h
          obtain ⟨tail, fin, hh, hs, htg, hns⟩ := ih _ _ _ h
          refine ⟨⟨t.name, Outcome.failure, elapsed, (oracle t.name).duration⟩ :: tail,
            fin, ?_, hs, htg, ?_⟩
          · rw [hh]
            simp
          · intro a ha
            rcases List.mem_cons.mp ha with h1 | h1
            · subst h1
              simp
            · exact hns a h1

theorem executeGo_error_no_success (oracle : String → Behavior)
    (deadline : Nat) :
    ∀ (targets : List RankedTarget) (elapsed : Nat) (hist : List Attempt)
      (e : RoutingExhausted),
      (∀ t ∈ targets, (oracle t.name).ok = false) →
      (∀ a ∈ hist, a.outcome ≠ Outcome.success) →
      executeGo oracle deadline targets elapsed hist = .error e →
      ∀ a ∈ e.history, a.outcome ≠ Outcome.success := by
  intro targets
  induction targets with
  | nil =>
    intro elapsed hist e _ hh he
    cases he
    exact hh
  | cons t rest ih =>
    intro elapsed hist e hfail hh he
    by_cases hd : deadline ≤ elapsed
    · simp only [executeGo, if_pos hd] at he
      cases he
      exact hh
    · simp only [executeGo, if_neg hd] at he
      set budget := min t.attemptTimeout (deadline - elapsed) with hbudget
      have hstep : ∀ (o : Outcome) (d : Nat), o ≠ Outcome.success →
          ∀ a ∈ hist ++ [⟨t.name, o, elapsed, d⟩], a.outcome ≠ Outcome.success := by
        intro o d ho a ha
        rcases List.mem_append.mp ha with h1 | h1
        · exact hh a h1
        · simp only [List.mem_singleton] at h1
          subst h1
          exact ho
      by_cases hto : budget < (oracle t.name).duration
      · simp only [if_pos hto] at he
        exact ih _ _ _ (fun u hu => hfail u (List.mem_cons_of_mem _ hu))
          (hstep Outcome.timedOut budget (by simp)) he
      · simp only [if_neg hto] at he
        have hok : (oracle t.name).ok = false := hfail t (List.mem_cons_self _ _)
        rw [hok] at he
        simp only [Bool.false_eq_true, if_false] at he
        exact ih _ _ _ (fun u hu => hfail u (List.mem_cons_of_mem _ hu))
          (hstep Outcome.failure (oracle t.name).duration (by simp)) he

/-- C3: when every attempt on the ranked list fails and the work fits inside
the deadline, execute fails with RoutingExhausted carrying one history entry
per ranked target, in order, none of them successful; with every attempt
failing it fails with RoutingExhausted whatever the deadline, the carried
history never holding a success; a zero remaining deadline is Exhausted
before any attempt; and whenever execute succeeds, every attempt before the
final successful one is a non-success that was absorbed by falling back,
never surfaced to the caller. -/
theorem execute_exhaustion_absorption (oracle : String → Behavior)
    (deadline : Nat) :
    (∀ targets : List RankedTarget,
      (∀ t ∈ targets, (oracle t.name).ok = false) →
      (targets.map (fun t => (oracle t.name).duration)).sum < deadline →
      ∃ e, execute oracle targets deadline = .error e ∧
        e.history.map Attempt.target = targets.map RankedTarget.name ∧
        ∀ a ∈ e.history, a.outcome ≠ Outcome.success) ∧
    (∀ (targets : List RankedTarget) (e : RoutingExhausted),
      (∀ t ∈ targets, (oracle t.name).ok = false) →
      execute oracle targets deadline = .error e →
      ∀ a ∈ e.history, a.outcome ≠ Outcome.success) ∧
    (deadline = 0 → ∀ targets : List RankedTarget,
      execute oracle targets deadline = .error ⟨[], 0⟩) ∧
    (∀ (targets : List RankedTarget) (r : DispatchSuccess),
      execute oracle targets deadline = .ok r →
      ∃ pre fin, r.history = pre ++ [fin] ∧
        fin.outcome = Outcome.success ∧ fin.target = r.targetUsed ∧
        ∀ a ∈ pre, a.outcome ≠ Outcome.success) := by
  refine ⟨?_, ?_, ?_, ?_⟩
  · intro targets hfail hfit
    obtain ⟨e, he, hmap, hns⟩ := executeGo_allFail oracle deadline targets 0 []
      hfail (by simpa using hfit) (by intro a ha; cases ha)
    exact ⟨e, he, by simpa using hmap, hns⟩
  · intro targets e hfail he
    exact executeGo_error_no_success oracle deadline targets 0 [] e hfail
      (by intro a ha; cases ha) he
  · intro h0 targets
    subst h0
    cases targets with
    | nil => rfl
    | cons t rest =>
      simp [execute, executeGo]
  · intro targets r h
    obtain ⟨tail, fin, hh, hs, htg, hns⟩ := executeGo_ok oracle deadline targets 0 [] r h
    exact ⟨tail, fin, by simpa using hh, hs, htg, hns⟩

/-- Witness for C3: a two-target ranked list where both attempts fail is
exhausted with both attempts in the history, and a ranked list whose second
target succeeds absorbs the first failure. -/
theorem execute_exhaustion_absorption_witness :
    (∃ e, execute (fun _ => ⟨1, false⟩) [⟨"gpu-cluster", 10⟩, ⟨"cloud-gpu", 10⟩] 100
          = .error e ∧
        e.history.map Attempt.target = ["gpu-cluster", "cloud-gpu"] ∧
        ∀ a ∈ e.history, a.outcome ≠ Outcome.success) ∧
    (∃ pre fin,
      (DispatchSuccess.mk "cloud-gpu" 2
        [⟨"gpu-cluster", Outcome.failure, 0, 1⟩,
         ⟨"cloud-gpu", Outcome.success, 1, 1⟩]).history = pre ++ [fin] ∧
      fin.outcome = Outcome.success ∧
      fin.target = (DispatchSuccess.mk "cloud-gpu" 2
        [⟨"gpu-cluster", Outcome.failure, 0, 1⟩,
         ⟨"cloud-gpu", Outcome.success, 1, 1⟩]).targetUsed ∧
      ∀ a ∈ pre, a.outcome ≠ Outcome.success) ∧
    execute (fun _ => ⟨1, false⟩) [⟨"gpu-cluster", 10⟩] 0 = .error ⟨[], 0⟩ := by
  refine ⟨?_, ?_, ?_⟩
  · exact (execute_exhaustion_absorption (fun _ => ⟨1, false⟩) 100).1
      [⟨"gpu-cluster", 10⟩, ⟨"cloud-gpu", 10⟩] (by decide) (by decide)
  · exact (execute_exhaustion_absorption
        (fun n => if n == "cloud-gpu" then ⟨1, true⟩ else ⟨1, false⟩) 100).2.2.2
      [⟨"gpu-cluster", 10⟩, ⟨"cloud-gpu", 10⟩] _ rfl
  · exact (execute_exhaustion_absorption (fun _ => ⟨1, false⟩) 0).2.2.1 rfl
      [⟨"gpu-cluster", 10⟩]

/-- Modelled from the spec: the per-target state kept by the Target Registry
for health hysteresis (section 4.1): health, consecutive failure and success
counters, and the exponentially smoothed latency. -/
structure TargetHealth where
  health : Health
  consecFailures : Nat
  consecSuccesses : Nat
  latencyEMA : Nat
deriving DecidableEq

/-- Modelled from the spec: recordOutcome of the Target Registry
(section 4.1).  It updates the smoothed latency by an exponential moving
average with fixed decay and transitions health: three consecutive failures
make the target Unreachable; one success from Unreachable makes it Degraded,
never directly Healthy; N consecutive successes from Degraded restore
Healthy. -/
def recordOutcome (N decay : Nat) (s : TargetHealth) (success : Bool)
    (latencyObserved : Nat) : TargetHealth :=
  let ema := (s.latencyEMA * (decay - 1) + latencyObserved) / decay
  if success then
    match s.health with
    | .unreachable => ⟨.degraded, 0, 1, ema⟩
    | .degraded =>
      if N ≤ s.consecSuccesses + 1 then ⟨.healthy, 0, s.consecSuccesses + 1, ema⟩
      else ⟨.degraded, 0, s.consecSuccesses + 1, ema⟩
    | .healthy => ⟨.healthy, 0, s.consecSuccesses + 1, ema⟩
  else
    if 3 ≤ s.consecFailures + 1 then ⟨.unreachable, s.consecFailures + 1, 0, ema⟩
    else ⟨s.health, s.consecFailures + 1, 0, ema⟩

/-- Iterate recordOutcome over k consecutive successful probes. -/
def recordSuccesses (N decay lat : Nat) : Nat → TargetHealth → TargetHealth
  | 0, s => s
  | k + 1, s => recordSuccesses N decay lat k (recordOutcome N decay s true lat)

theorem recordOutcome_failure_counter (N decay : Nat) (s : TargetHealth)
    (lat : Nat) :
    (recordOutcome N decay s false lat).consecFailures = s.consecFailures + 1 ∧
    (3 ≤ s.consecFailures + 1 →
      (recordOutcome N decay s false lat).health = Health.unreachable) := by
  unfold recordOutcome
  by_cases h : 3 ≤ s.consecFailures + 1
  · simp [h]
  · simp [h]

theorem recordSuccesses_healthy (N decay lat : Nat) :
    ∀ (k : Nat) (s : TargetHealth), s.health = Health.healthy →
      (recordSuccesses N decay lat k s).health = Health.healthy := by
  intro k
  induction k with
  | zero => intro s hs; exact hs
  | succ k ih =>
    intro s hs
    simp only [recordSuccesses]
    refine ih _ ?_
    unfold recordOutcome
    rw [hs]
    simp

theorem recordSuccesses_degraded (N decay lat : Nat) :
    ∀ (k : Nat) (s : TargetHealth), s.health = Health.degraded →
      s.consecSuccesses < N →
      ((recordSuccesses N decay lat k s).health = Health.healthy ↔
        N ≤ s.consecSuccesses + k) := by
  intro k
  induction k with
  | zero =>
    intro s hs hlt
    rw [recordSuccesses, hs]
    simp only [Nat.add_zero]
    constructor
    · intro h; cases h
    · intro h; omega
  | succ k ih =>
    intro s hs hlt
    simp only [recordSuccesses]
    by_cases hN : N ≤ s.consecSuccesses + 1
    · have hstep : (recordOutcome N decay s true lat).health = Health.healthy := by
        unfold recordOutcome
        rw [hs]
        simp [hN]
      rw [recordSuccesses_healthy N decay lat k _ hstep]
      constructor
      · intro _; omega
      · intro _; rfl
    · have hstep : recordOutcome N decay s true lat =
          ⟨Health.degraded, 0, s.consecSuccesses + 1,
            (s.latencyEMA * (decay - 1) + lat) / decay⟩ := by
        unfold recordOutcome
        rw [hs]
        simp [hN]
      rw [hstep]
      have := ih ⟨Health.degraded, 0, s.consecSuccesses + 1,
        (s.latencyEMA * (decay - 1) + lat) / decay⟩ rfl (by simpa using Nat.lt_of_not_le hN)
      simp only at this
      rw [this]
      omega

/-- C4: the health hysteresis of the Target Registry.  Under any prior state,
three consecutive recorded failures leave the target Unreachable; a single
success from Unreachable moves it to Degraded, never directly to Healthy; and
from Degraded with the success streak reset, k consecutive successes restore
Healthy exactly when k reaches N. -/
theorem health_hysteresis (N decay : Nat) (hN : 1 ≤ N) :
    (∀ (s : TargetHealth) (l₁ l₂ l₃ : Nat),
      (recordOutcome N decay
        (recordOutcome N decay
          (recordOutcome N decay s false l₁) false l₂) false l₃).health =
        Health.unreachable) ∧
    (∀ (s : TargetHealth) (l : Nat), s.health = Health.unreachable →
      (recordOutcome N decay s true l).health = Health.degraded ∧
      (recordOutcome N decay s true l).health ≠ Health.healthy) ∧
    (∀ (s : TargetHealth) (l : Nat) (k : Nat), s.health = Health.degraded →
      s.consecSuccesses = 0 →
      ((recordSuccesses N decay l k s).health = Health.healthy ↔ N ≤ k)) := by
  refine ⟨?_, ?_, ?_⟩
  · intro s l₁ l₂ l₃
    have h1 := (recordOutcome_failure_counter N decay s l₁).1
    have h2 := (recordOutcome_failure_counter N decay
      (recordOutcome N decay s false l₁) l₂).1
    have h3 := (recordOutcome_failure_counter N decay
      (recordOutcome N decay (recordOutcome N decay s false l₁) false l₂) l₃).2
    apply h3
    omega
  · intro s l hs
    have : (recordOutcome N decay s true l).health = Health.degraded := by
      unfold recordOutcome
      rw [hs]
      simp
    exact ⟨this, by rw [this]; intro h; cases h⟩
  · intro s l k hs hz
    have := recordSuccesses_degraded N decay l k s hs (by omega)
    rw [this, hz]
    simp

/-- Witness for C4: with N equal to two and decay two, a fresh Degraded state
reaches Healthy after exactly two consecutive successes, a triple failure is
Unreachable, and the first success from Unreachable is Degraded. -/
theorem health_hysteresis_witness :
    (recordOutcome 2 2 (recordOutcome 2 2
        (recordOutcome 2 2 ⟨Health.healthy, 0, 0, 40⟩ false 40) false 40)
        false 40).health = Health.unreachable ∧
    ((recordOutcome 2 2 ⟨Health.unreachable, 3, 0, 40⟩ true 40).health =
        Health.degraded ∧
      (recordOutcome 2 2 ⟨Health.unreachable, 3, 0, 40⟩ true 40).health ≠
        Health.healthy) ∧
    ((recordSuccesses 2 2 40 2 ⟨Health.degraded, 0, 0, 40⟩).health =
        Health.healthy ↔ 2 ≤ 2) := by
  refine ⟨?_, ?_, ?_⟩
  · exact (health_hysteresis 2 2 (by decide)).1 ⟨Health.healthy, 0, 0, 40⟩ 40 40 40
  · exact (health_hysteresis 2 2 (by decide)).2.1 ⟨Health.unreachable, 3, 0, 40⟩ 40 rfl
  · exact (health_hysteresis 2 2 (by decide)).2.2 ⟨Health.degraded, 0, 0, 40⟩ 40 2 rfl rfl

theorem keyLE_total (a b : Nat × Nat × Nat) : keyLE a b = true ∨ keyLE b a = true := by
  unfold keyLE
  simp only [Bool.or_eq_true, Bool.and_eq_true, decide_eq_true_eq]
  omega

theorem keyLE_trans (a b c : Nat × Nat × Nat) (h1 : keyLE a b = true)
    (h2 : keyLE b c = true) : keyLE a c = true := by
  unfold keyLE at h1 h2 ⊢
  simp only [Bool.or_eq_true, Bool.and_eq_true, decide_eq_true_eq] at h1 h2 ⊢
  omega

theorem mem_enumFrom_of_mem {α : Type} {a : α} :
    ∀ (l : List α) (n : Nat), a ∈ l → ∃ i, (i, a) ∈ l.enumFrom n := by
  intro l
  induction l with
  | nil => intro n h; cases h
  | cons b l ih =>
    intro n h
    rcases List.mem_cons.mp h with h1 | h1
    · subst h1
      exact ⟨n, List.mem_cons_self _ _⟩
    · obtain ⟨i, hi⟩ := ih (n + 1) h1
      exact ⟨i, List.mem_cons_of_mem _ hi⟩

theorem mem_of_mem_enumFrom {α : Type} {p : Nat × α} :
    ∀ (l : List α) (n : Nat), p ∈ l.enumFrom n → p.2 ∈ l := by
  intro l
  induction l with
  | nil => intro n h; cases h
  | cons b l ih =>
    intro n h
    rcases List.mem_cons.mp h with h1 | h1
    · subst h1
      exact List.mem_cons_self _ _
    · exact List.mem_cons_of_mem _ (ih (n + 1) h1)

theorem lookupTarget_name {reg : List Target} {n : String} {t : Target}
    (h : lookupTarget reg n = some t) : t.name = n := by
  have := List.find?_some h
  simpa using this

theorem admissible_lookup {reg : List Target} {supports : String → String → Bool}
    {g : GlobalRouting} {svc : String} {r : PlacementRule}
    (h : admissibleRule reg supports g svc r = true) :
    ∃ t, lookupTarget reg r.target = some t := by
  unfold admissibleRule evalRule at h
  cases hl : lookupTarget reg r.target with
  | none => rw [hl] at h; simp at h
  | some t => exact ⟨t, rfl⟩

theorem resolveTargets_cons (reg : List Target) (ir : Nat × PlacementRule)
    (l : List (Nat × PlacementRule)) :
    resolveTargets reg (ir :: l) =
      match lookupTarget reg ir.2.target with
      | none => resolveTargets reg l
      | some t => t :: resolveTargets reg l := by
  cases hl : lookupTarget reg ir.2.target <;>
    simp [resolveTargets, List.filterMap_cons, hl]

theorem resolveTargets_filter_name (reg : List Target) (excl : String) :
    ∀ l : List (Nat × PlacementRule),
      resolveTargets reg (l.filter (fun ir => !(ir.2.target == excl))) =
        (resolveTargets reg l).filter (fun t => !(t.name == excl)) := by
  intro l
  induction l with
  | nil => rfl
  | cons ir l ih =>
    rw [resolveTargets_cons reg ir l]
    by_cases hx : (ir.2.target == excl) = true
    · have h1 : (ir :: l).filter (fun ir => !(ir.2.target == excl)) =
          l.filter (fun ir => !(ir.2.target == excl)) := by
        simp [List.filter_cons, hx]
      rw [h1, ih]
      cases hl : lookupTarget reg ir.2.target with
      | none => rfl
      | some t =>
        have hn : (t.name == excl) = true := by
          rw [lookupTarget_name hl]
          exact hx
        simp [List.filter_cons, hn]
    · have hx2 : (ir.2.target == excl) = false := by
        simpa using hx
      have h1 : (ir :: l).filter (fun ir => !(ir.2.target == excl)) =
          ir :: l.filter (fun ir => !(ir.2.target == excl)) := by
        simp [List.filter_cons, hx2]
      rw [h1, resolveTargets_cons reg ir _]
      cases hl : lookupTarget reg ir.2.target with
      | none => exact ih
      | some t =>
        have hn : (t.name == excl) = false := by
          rw [lookupTarget_name hl]
          exact hx2
        rw [ih]
        simp [List.filter_cons, hn]

theorem resolveTargets_ne_nil {reg : List Target}
    {supports : String → String → Bool} {g : GlobalRouting} {svc : String}
    {l : List (Nat × PlacementRule)} (hne : l ≠ [])
    (hadm : ∀ ir ∈ l, admissibleRule reg supports g svc ir.2 = true) :
    resolveTargets reg l ≠ [] := by
  cases l with
  | nil => exact absurd rfl hne
  | cons ir l =>
    obtain ⟨t, ht⟩ := admissible_lookup (hadm ir (List.mem_cons_self _ _))
    simp [resolveTargets, ht]

theorem costAdjust_id {g : GlobalRouting} (hco : g.cost_optimization = false) :
    ∀ l : List Target, costAdjust g l = l := by
  intro l
  match l with
  | [] => rfl
  | [t] => rfl
  | t :: u :: rest =>
    unfold costAdjust
    rw [hco]
    simp

/-- C1 (amended): whenever the cost-optimization preference of section 4.4
does not apply (here: the cost_optimization flag is disabled) and at least one
rule of the service is admissible, rank returns the non-empty admissible
target sequence ordered by rule priority and then by the configured tie-break
key, and making any target inadmissible leaves the relative order of the
remaining ranked targets unchanged. -/
theorem rank_ordered_and_stable
    (P : PolicyDoc) (reg : List Target) (supports : String → String → Bool)
    (g : GlobalRouting) (cursor : Nat) (svc : String)
    (hco : g.cost_optimization = false)
    (hadm : ∃ r ∈ rulesFor P svc, admissibleRule reg supports g svc r = true) :
    rank P reg supports g cursor svc =
      .ok (resolveTargets reg (rankRules P reg supports g cursor svc)) ∧
    resolveTargets reg (rankRules P reg supports g cursor svc) ≠ [] ∧
    (∀ ir ∈ rankRules P reg supports g cursor svc,
      admissibleRule reg supports g svc ir.2 = true) ∧
    List.Pairwise (ruleLE reg g cursor (indexRules (rulesFor P svc)).length)
      (rankRules P reg supports g cursor svc) ∧
    (∀ excl : String,
      resolveTargets reg (rankRulesExcluding P reg supports g cursor svc excl) =
        (resolveTargets reg (rankRules P reg supports g cursor svc)).filter
          (fun t => !(t.name == excl))) := by
  obtain ⟨r, hr, hadmr⟩ := hadm
  obtain ⟨i, hi⟩ := mem_enumFrom_of_mem (rulesFor P svc) 0 hr
  have hmemsorted : (i, r) ∈ sortedRules P reg g cursor svc := by
    unfold sortedRules
    rw [List.mem_insertionSort]
    exact hi
  have hmemrank : (i, r) ∈ rankRules P reg supports g cursor svc :=
    List.mem_filter.mpr ⟨hmemsorted, hadmr⟩
  have hne : rankRules P reg supports g cursor svc ≠ [] :=
    List.ne_nil_of_mem hmemrank
  have hadmall : ∀ ir ∈ rankRules P reg supports g cursor svc,
      admissibleRule reg supports g svc ir.2 = true := by
    intro ir hir
    exact (List.mem_filter.mp hir).2
  have hresne : resolveTargets reg (rankRules P reg supports g cursor svc) ≠ [] :=
    resolveTargets_ne_nil hne hadmall
  refine ⟨?_, hresne, hadmall, ?_, ?_⟩
  · unfold rank
    have hie : (rankRules P reg supports g cursor svc).isEmpty = false := by
      cases hcase : rankRules P reg supports g cursor svc with
      | nil => exact absurd hcase hne
      | cons a l => simp [List.isEmpty]
    simp only [hie, Bool.false_eq_true, if_false]
    rw [costAdjust_id hco]
  · letI : IsTotal (Nat × PlacementRule)
        (ruleLE reg g cursor (indexRules (rulesFor P svc)).length) :=
      ⟨fun a b => keyLE_total _ _⟩
    letI : IsTrans (Nat × PlacementRule)
        (ruleLE reg g cursor (indexRules (rulesFor P svc)).length) :=
      ⟨fun a b c => keyLE_trans _ _ _⟩
    have hs : List.Sorted
        (ruleLE reg g cursor (indexRules (rulesFor P svc)).length)
        (sortedRules P reg g cursor svc) := by
      unfold sortedRules
      exact List.sorted_insertionSort _ _
    exact List.Pairwise.sublist (List.filter_sublist _) hs
  · intro excl
    have hsplit : rankRulesExcluding P reg supports g cursor svc excl =
        (rankRules P reg supports g cursor svc).filter
          (fun ir => !(ir.2.target == excl)) := by
      unfold rankRulesExcluding rankRules
      rw [List.filter_filter]
      apply List.filter_congr
      intro x _
      exact Bool.and_comm _ _
    rw [hsplit]
    exact resolveTargets_filter_name reg excl _

/-- Global routing used by the C1 witness: the docker-offload.yml settings
with the cost_optimization flag turned off. -/
def routingNoCost : GlobalRouting := ⟨100, false, true, .round_robin⟩

/-- Witness for C1 (amended): the scenario A policy under routing without cost
optimization has an admissible rule, and rank returns the resolved admissible
rule list. -/
theorem rank_ordered_and_stable_witness :
    (∃ r ∈ rulesFor scenarioAPolicy "text_classifier",
      admissibleRule scenarioARegistry (fun _ _ => true) routingNoCost
        "text_classifier" r = true) ∧
    rank scenarioAPolicy scenarioARegistry (fun _ _ => true) routingNoCost 0
        "text_classifier" =
      .ok (resolveTargets scenarioARegistry
        (rankRules scenarioAPolicy scenarioARegistry (fun _ _ => true)
          routingNoCost 0 "text_classifier")) :=
  ⟨by decide,
    (rank_ordered_and_stable scenarioAPolicy scenarioARegistry (fun _ _ => true)
      routingNoCost 0 "text_classifier" rfl (by decide)).1⟩

/-- Rule priority of each ranked target, read back from the policy; used to
state the counterexample to the unconditional ordering claim. -/
def rankedRulePriorities (P : PolicyDoc) (reg : List Target)
    (supports : String → String → Bool) (g : GlobalRouting) (cursor : Nat)
    (svc : String) : List Nat :=
  match rank P reg supports g cursor svc with
  | .ok l => l.filterMap (fun t =>
      ((rulesFor P svc).find? (fun r => r.target == t.name)).map
        (fun r => r.priority))
  | .error _ => []

/-- Counterexample policy for C1: one service with a priority 1 rule on an
expensive target and a priority 2 rule on a cheap one, under the
docker-offload.yml routing, whose cost_optimization flag is on. -/
def cexPolicy : PolicyDoc :=
  ⟨[⟨"svc",
      [⟨"gpu-cluster", 1, [], none⟩,
       ⟨"cloud-gpu", 2, [], none⟩]⟩],
    yamlRouting⟩

/-- Counterexample registry for C1: both targets healthy and fast, the
priority 1 target three hundred cents per hour, the priority 2 one fifty. -/
def cexRegistry : List Target :=
  [⟨"gpu-cluster", 10, 16, 40, 50, 300, .healthy⟩,
   ⟨"cloud-gpu", 10, 8, 40, 50, 50, .healthy⟩]

/-- Counterexample for C1 as stated: with cost_optimization enabled (as in
docker-offload.yml) the cost and latency trade-off of section 4.4 puts the
cheaper priority 2 target ahead of the admissible priority 1 target, so the
returned sequence is not ordered by the rule priority integer. -/
theorem rank_priority_order_cex :
    rankedRulePriorities cexPolicy cexRegistry (fun _ _ => true) yamlRouting 0
        "svc" = [2, 1] ∧
    ¬ List.Pairwise (fun a b => a ≤ b)
      (rankedRulePriorities cexPolicy cexRegistry (fun _ _ => true) yamlRouting
        0 "svc") := by
  constructor
  · rfl
  · intro h
    have : (2 : Nat) ≤ 1 := by
      have h2 : List.Pairwise (fun a b => a ≤ b) [2, 1] := by
        have he : rankedRulePriorities cexPolicy cexRegistry (fun _ _ => true)
            yamlRouting 0 "svc" = [2, 1] := rfl
        rw [he] at h
        exact h
      exact (List.pairwise_cons.mp h2).1 1 (List.mem_singleton.mpr rfl)
    omega

theorem admissible_false_evalRule {reg : List Target}
    {supports : String → String → Bool} {g : GlobalRouting} {svc : String}
    {r : PlacementRule} (h : admissibleRule reg supports g svc r = false) :
    ∃ reason, evalRule reg supports g svc r = some reason := by
  unfold admissibleRule at h
  cases he : evalRule reg supports g svc r with
  | none => rw [he] at h; simp at h
  | some reason => exact ⟨reason, rfl⟩

theorem ruleFailures_spec (reg : List Target)
    (supports : String → String → Bool) (g : GlobalRouting) (svc : String) :
    ∀ l : List (Nat × PlacementRule),
      (∀ ir ∈ l, admissibleRule reg supports g svc ir.2 = false) →
      (ruleFailures reg supports g svc l).map RuleFailure.rule = l.map Prod.snd ∧
      ∀ f ∈ ruleFailures reg supports g svc l,
        evalRule reg supports g svc f.rule = some f.reason := by
  intro l
  induction l with
  | nil =>
    intro _
    exact ⟨rfl, by intro f hf; cases hf⟩
  | cons ir l ih =>
    intro h
    obtain ⟨reason, hreason⟩ :=
      admissible_false_evalRule (h ir (List.mem_cons_self _ _))
    have hrest := ih (fun u hu => h u (List.mem_cons_of_mem _ hu))
    have hcons : ruleFailures reg supports g svc (ir :: l) =
        ⟨ir.2, reason⟩ :: ruleFailures reg supports g svc l := by
      unfold ruleFailures
      rw [List.filterMap_cons, hreason]
      rfl
    constructor
    · rw [hcons, List.map_cons, List.map_cons, hrest.1]
    · intro f hf
      rw [hcons] at hf
      rcases List.mem_cons.mp hf with h1 | h1
      · subst h1
        exact hreason
      · exact hrest.2 f h1

theorem evalRule_conditionFailed {reg : List Target}
    {supports : String → String → Bool} {g : GlobalRouting} {svc : String}
    {r : PlacementRule} {c : AdmissionCondition}
    (h : evalRule reg supports g svc r = some (FailReason.conditionFailed c)) :
    c ∈ r.conditions ∧
    ∀ t, lookupTarget reg r.target = some t → evalCondition t c = false := by
  unfold evalRule at h
  cases hl : lookupTarget reg r.target with
  | none =>
    rw [hl] at h
    simp at h
  | some t =>
    rw [hl] at h
    by_cases hsup : supports r.target svc = true
    · rw [hsup] at h
      simp only [Bool.not_true, Bool.false_eq_true, if_false] at h
      by_cases hh : t.health = Health.unreachable
      · simp [hh] at h
      · simp only [hh, if_false] at h
        cases hf : r.conditions.find? (fun c => !(evalCondition t c)) with
        | none =>
          rw [hf] at h
          by_cases hgc : g.cost_optimization = true
          · rw [hgc] at h
            simp only [if_true] at h
            cases hct : r.cost_threshold with
            | none => rw [hct] at h; cases h
            | some th =>
              rw [hct] at h
              by_cases hlt : decide (th < t.cost_per_hour) = true
              · simp [hlt] at h
              · simp [hlt] at h
          · have : g.cost_optimization = false := by
              simpa using hgc
            rw [this] at h
            simp at h
        | some c0 =>
          rw [hf] at h
          have hc0 : c0 = c := by
            have := Option.some.inj h
            cases this
            rfl
          subst hc0
          refine ⟨List.mem_of_find?_eq_some hf, ?_⟩
          intro t2 ht2
          have ht : t = t2 := Option.some.inj ht2
          subst ht
          have := List.find?_some hf
          simpa using this
    · have hsup2 : supports r.target svc = false := by
        simpa using hsup
      rw [hsup2] at h
      simp at h

theorem sorted_all_inadmissible {P : PolicyDoc} {reg : List Target}
    {supports : String → String → Bool} {g : GlobalRouting} {cursor : Nat}
    {svc : String}
    (h : ∀ r ∈ rulesFor P svc, admissibleRule reg supports g svc r = false) :
    ∀ ir ∈ sortedRules P reg g cursor svc,
      admissibleRule reg supports g svc ir.2 = false := by
  intro ir hir
  unfold sortedRules at hir
  rw [List.mem_insertionSort] at hir
  exact h ir.2 (mem_of_mem_enumFrom _ 0 hir)

/-- C6: whenever no placement rule of the requested service is admissible,
rank fails with a NoAdmissibleTarget error that lists every rule evaluated
(in evaluation order) together with the check that failed for it; a reported
failed condition really is a condition of that rule that evaluates false
against the registered target.  rank is a pure function evaluated once per
request, so the error is returned to the caller directly, with no internal
retry. -/
theorem rank_no_admissible_target
    (P : PolicyDoc) (reg : List Target) (supports : String → String → Bool)
    (g : GlobalRouting) (cursor : Nat) (svc : String)
    (h : ∀ r ∈ rulesFor P svc, admissibleRule reg supports g svc r = false) :
    ∃ e, rank P reg supports g cursor svc = .error e ∧
      e.service = svc ∧
      e.failures.map RuleFailure.rule =
        (sortedRules P reg g cursor svc).map Prod.snd ∧
      (∀ f ∈ e.failures, evalRule reg supports g svc f.rule = some f.reason) ∧
      (∀ f ∈ e.failures, ∀ c, f.reason = FailReason.conditionFailed c →
        c ∈ f.rule.conditions ∧
        ∀ t, lookupTarget reg f.rule.target = some t →
          evalCondition t c = false) := by
  have hsor := @sorted_all_inadmissible P reg supports g cursor svc h
  have hempty : rankRules P reg supports g cursor svc = [] := by
    unfold rankRules
    rw [List.filter_eq_nil_iff]
    intro ir hir
    rw [hsor ir hir]
    simp
  have hfail := ruleFailures_spec reg supports g svc
    (sortedRules P reg g cursor svc) hsor
  refine ⟨⟨svc, ruleFailures reg supports g svc (sortedRules P reg g cursor svc)⟩,
    ?_, rfl, hfail.1, hfail.2, ?_⟩
  · unfold rank
    rw [hempty]
    rfl
  · intro f hf c hc
    have := hfail.2 f hf
    rw [hc] at this
    exact evalRule_conditionFailed this

/-- Policy used by the C6 witness: a single rule whose cpu condition fails
against the scenario A registry. -/
def c6Policy : PolicyDoc :=
  ⟨[⟨"svc", [⟨"edge-compute", 1, [⟨.cpu_utilization, .lt, 70⟩], none⟩]⟩],
    yamlRouting⟩

/-- Witness for C6: with the edge target at 80 percent cpu, the only rule of
the service is inadmissible and rank returns the NoAdmissibleTarget
diagnostic. -/
theorem rank_no_admissible_target_witness :
    (∀ r ∈ rulesFor c6Policy "svc",
      admissibleRule scenarioARegistry (fun _ _ => true) yamlRouting "svc" r
        = false) ∧
    (∃ e, rank c6Policy scenarioARegistry (fun _ _ => true) yamlRouting 0 "svc"
        = .error e ∧
      e.service = "svc" ∧
      e.failures.map RuleFailure.rule =
        (sortedRules c6Policy scenarioARegistry yamlRouting 0 "svc").map
          Prod.snd ∧
      (∀ f ∈ e.failures,
        evalRule scenarioARegistry (fun _ _ => true) yamlRouting "svc" f.rule =
          some f.reason) ∧
      (∀ f ∈ e.failures, ∀ c, f.reason = FailReason.conditionFailed c →
        c ∈ f.rule.conditions ∧
        ∀ t, lookupTarget scenarioARegistry f.rule.target = some t →
          evalCondition t c = false)) :=
  ⟨by decide,
    rank_no_admissible_target c6Policy scenarioARegistry (fun _ _ => true)
      yamlRouting 0 "svc" (by decide)⟩

theorem cheapestUnder_some {threshold : Nat} :
    ∀ {l : List Target} {c : Target}, cheapestUnder threshold l = some c →
      c ∈ l ∧ c.latency < threshold := by
  intro l
  induction l with
  | nil => intro c h; cases h
  | cons t rest ih =>
    intro c h
    unfold cheapestUnder at h
    cases hr : cheapestUnder threshold rest with
    | none =>
      simp only [hr] at h
      by_cases hlat : decide (t.latency < threshold) = true
      · rw [hlat] at h
        simp only [if_true] at h
        have hc : t = c := Option.some.inj h
        subst hc
        exact ⟨List.mem_cons_self _ _, of_decide_eq_true hlat⟩
      · have hlat2 : decide (t.latency < threshold) = false := by
          simpa using hlat
        rw [hlat2] at h
        simp at h
    | some u =>
      simp only [hr] at h
      by_cases hcond : (decide (t.latency < threshold) &&
          decide (t.cost_per_hour ≤ u.cost_per_hour)) = true
      · rw [hcond] at h
        simp only [if_true] at h
        have hc : t = c := Option.some.inj h
        subst hc
        have := (Bool.and_eq_true _ _).mp hcond
        exact ⟨List.mem_cons_self _ _, of_decide_eq_true this.1⟩
      · have hcond2 : (decide (t.latency < threshold) &&
            decide (t.cost_per_hour ≤ u.cost_per_hour)) = false := by
          simpa using hcond
        rw [hcond2] at h
        simp only [Bool.false_eq_true, if_false] at h
        have hc : u = c := Option.some.inj h
        subst hc
        obtain ⟨hm, hlat⟩ := ih hr
        exact ⟨List.mem_cons_of_mem _ hm, hlat⟩

theorem cheapestUnder_isSome {threshold : Nat} :
    ∀ {l : List Target}, (∃ v ∈ l, v.latency < threshold) →
      ∃ c, cheapestUnder threshold l = some c := by
  intro l
  induction l with
  | nil =>
    intro h
    obtain ⟨v, hv, _⟩ := h
    cases hv
  | cons t rest ih =>
    intro h
    unfold cheapestUnder
    cases hr : cheapestUnder threshold rest with
    | none =>
      simp only [hr]
      obtain ⟨v, hv, hlat⟩ := h
      rcases List.mem_cons.mp hv with h1 | h1
      · subst h1
        rw [decide_eq_true hlat]
        exact ⟨v, by simp⟩
      · obtain ⟨c, hc⟩ := ih ⟨v, h1, hlat⟩
        rw [hc] at hr
        cases hr
    | some u =>
      simp only [hr]
      by_cases hcond : (decide (t.latency < threshold) &&
          decide (t.cost_per_hour ≤ u.cost_per_hour)) = true
      · exact ⟨t, by rw [hcond]; simp⟩
      · have hcond2 : (decide (t.latency < threshold) &&
            decide (t.cost_per_hour ≤ u.cost_per_hour)) = false := by
          simpa using hcond
        exact ⟨u, by rw [hcond2]; simp⟩

theorem cheapestUnder_none {threshold : Nat} :
    ∀ {l : List Target}, (∀ v ∈ l, threshold ≤ v.latency) →
      cheapestUnder threshold l = none := by
  intro l
  induction l with
  | nil => intro _; rfl
  | cons t rest ih =>
    intro h
    unfold cheapestUnder
    rw [ih (fun v hv => h v (List.mem_cons_of_mem _ hv))]
    have : decide (t.latency < threshold) = false := by
      simp only [decide_eq_false_iff_not]
      have := h t (List.mem_cons_self _ _)
      omega
    simp only [this]
    simp

/-- C7: the cost and latency trade-off applied by rank (section 4.4).  When
cost optimization is enabled and the top-ranked admissible target costs more
than every other admissible target, the cheaper alternative is preferred
exactly when one stays under the global latency threshold: the new head is
then a strictly cheaper target under the threshold, while a head change never
selects a target at or above the threshold, and when every alternative is at
or above the threshold the ranking is left unchanged — latency is never
traded away for cost. -/
theorem cost_latency_tradeoff (g : GlobalRouting) (t u : Target)
    (rest : List Target)
    (hco : g.cost_optimization = true)
    (hcost : ∀ v ∈ u :: rest, v.cost_per_hour < t.cost_per_hour) :
    (∀ c tail, costAdjust g (t :: u :: rest) = c :: tail →
      c = t ∨ (c.cost_per_hour < t.cost_per_hour ∧
        c.latency < g.latency_threshold)) ∧
    ((∃ v ∈ u :: rest, v.latency < g.latency_threshold) →
      ∃ c, cheapestUnder g.latency_threshold (u :: rest) = some c ∧
        costAdjust g (t :: u :: rest) = c :: t :: (u :: rest).erase c ∧
        c.cost_per_hour < t.cost_per_hour ∧
        c.latency < g.latency_threshold) ∧
    ((∀ v ∈ u :: rest, g.latency_threshold ≤ v.latency) →
      costAdjust g (t :: u :: rest) = t :: u :: rest) := by
  have hall : (u :: rest).all
      (fun v => decide (v.cost_per_hour < t.cost_per_hour)) = true := by
    rw [List.all_eq_true]
    intro v hv
    exact decide_eq_true (hcost v hv)
  have hgate : (g.cost_optimization && (u :: rest).all
      (fun v => decide (v.cost_per_hour < t.cost_per_hour))) = true := by
    rw [hco, hall]
    rfl
  cases hcu : cheapestUnder g.latency_threshold (u :: rest) with
  | none =>
    have hca : costAdjust g (t :: u :: rest) = t :: u :: rest := by
      unfold costAdjust
      simp only [hgate, if_true, hcu]
    refine ⟨?_, ?_, fun _ => hca⟩
    · intro c tail heq
      rw [hca] at heq
      exact Or.inl (List.cons.inj heq).1.symm
    · intro hex
      obtain ⟨c, hc⟩ := cheapestUnder_isSome hex
      rw [hc] at hcu
      cases hcu
  | some c0 =>
    have hca : costAdjust g (t :: u :: rest) =
        c0 :: t :: (u :: rest).erase c0 := by
      unfold costAdjust
      simp only [hgate, if_true, hcu]
    obtain ⟨hmem, hlat⟩ := cheapestUnder_some hcu
    refine ⟨?_, ?_, ?_⟩
    · intro c tail heq
      rw [hca] at heq
      have hc : c0 = c := (List.cons.inj heq).1
      subst hc
      exact Or.inr ⟨hcost c0 hmem, hlat⟩
    · intro _
      exact ⟨c0, rfl, hca, hcost c0 hmem, hlat⟩
    · intro hnone
      have := hnone c0 hmem
      omega

/-- Witness for C7: under the docker-offload.yml routing, a three hundred
cent per hour top target with one fifty cent alternative under the latency
threshold is displaced by the cheaper alternative. -/
theorem cost_latency_tradeoff_witness :
    (∃ v ∈ [Target.mk "cloud-gpu" 10 8 40 50 50 Health.healthy],
      v.latency < yamlRouting.latency_threshold) ∧
    (∃ c, cheapestUnder yamlRouting.latency_threshold
        [Target.mk "cloud-gpu" 10 8 40 50 50 Health.healthy] = some c ∧
      costAdjust yamlRouting
          (Target.mk "gpu-cluster" 10 16 40 50 300 Health.healthy ::
            Target.mk "cloud-gpu" 10 8 40 50 50 Health.healthy :: []) =
        c :: Target.mk "gpu-cluster" 10 16 40 50 300 Health.healthy ::
          ([Target.mk "cloud-gpu" 10 8 40 50 50 Health.healthy].erase c) ∧
      c.cost_per_hour <
        (Target.mk "gpu-cluster" 10 16 40 50 300 Health.healthy).cost_per_hour ∧
      c.latency < yamlRouting.latency_threshold) :=
  ⟨by decide,
    (cost_latency_tradeoff yamlRouting
      (Target.mk "gpu-cluster" 10 16 40 50 300 Health.healthy)
      (Target.mk "cloud-gpu" 10 8 40 50 50 Health.healthy) [] rfl
      (by decide)).2.1 (by decide)⟩

/-- Embedded from the coordinator app.py shipped inside
src/src/components/CodeBlock.tsx: the per-model metadata stored by the agent
after discovery (inputs, outputs, platform). -/
structure ModelMetadata where
  inputs : List String
  outputs : List String
  platform : String
deriving DecidableEq

/-- Embedded from the coordinator app.py: one input tensor of an
InferenceRequest (shape, datatype, data). -/
structure TensorInput where
  shape : List Nat
  datatype : String
  data : List Int
deriving DecidableEq

/-- Embedded from the coordinator app.py: the InferenceRequest body of the
infer endpoint (model_name, inputs, optional parameters). -/
structure InferenceRequest where
  model_name : String
  inputs : List (String × TensorInput)
  parameters : Option (List (String × Nat))
deriving DecidableEq

/-- Embedded from the coordinator app.py: the Agent, holding the Triton url
fixed at construction and the model metadata dictionary. -/
structure Agent where
  triton_url : String
  model_metadata : List (String × ModelMetadata)
deriving DecidableEq

/-- Embedded from the coordinator app.py: an HTTPException raised by a
handler, status code plus detail string. -/
structure HTTPException where
  status : Nat
  detail : String
deriving DecidableEq

/-- Embedded from the coordinator app.py: what the Triton client returns for
a successful inference call, output tensors plus execution metadata. -/
structure BackendResult where
  outputs : List (String × List Int)
  exec_time_ms : Nat
deriving DecidableEq

/-- Embedded from the coordinator app.py: the response body route_inference
builds on success. -/
structure InferResponse where
  model : String
  outputs : List (String × List Int)
  execution_time_ms : Nat
  batch_size : Nat
deriving DecidableEq

/-- Embedded from the coordinator app.py: batch size from the optional
request parameters, defaulting to one. -/
def batchSizeOf (req : InferenceRequest) : Nat :=
  match req.parameters with
  | some ps => (ps.lookup "batch_size").getD 1
  | none => 1

/-- Embedded from the coordinator app.py, Agent.route_inference: reject an
unknown model with 404 before any backend call; otherwise issue exactly one
inference call to the Triton endpoint fixed at construction, returning its
result or turning any failure into an HTTP 500.  The second component records
the backend endpoints called while handling the request. -/
def Agent.route_inference (a : Agent)
    (backend : String → InferenceRequest → Except String BackendResult)
    (req : InferenceRequest) :
    Except HTTPException InferResponse × List String :=
  match a.model_metadata.lookup req.model_name with
  | none => (.error ⟨404, "Model " ++ req.model_name ++ " not found"⟩, [])
  | some _ =>
    match backend a.triton_url req with
    | .ok res =>
      (.ok ⟨req.model_name, res.outputs, res.exec_time_ms, batchSizeOf req⟩,
        [a.triton_url])
    | .error e => (.error ⟨500, "Inference failed: " ++ e⟩, [a.triton_url])

/-- C8: route_inference dispatches to at most one backend, always the single
Triton endpoint fixed at construction; for a known model it makes exactly one
attempt there, and if that single attempt fails it raises HTTP 500
immediately with no fallback attempt against any other target. -/
theorem route_inference_single_backend (a : Agent)
    (backend : String → InferenceRequest → Except String BackendResult)
    (req : InferenceRequest) :
    ((a.route_inference backend req).2 = [] ∨
      (a.route_inference backend req).2 = [a.triton_url]) ∧
    ((a.route_inference backend req).2 = [] ↔
      a.model_metadata.lookup req.model_name = none) ∧
    (∀ md, a.model_metadata.lookup req.model_name = some md →
      (a.route_inference backend req).2 = [a.triton_url] ∧
      ∀ msg, backend a.triton_url req = .error msg →
        (a.route_inference backend req).1 =
          .error ⟨500, "Inference failed: " ++ msg⟩) := by
  unfold Agent.route_inference
  cases hl : a.model_metadata.lookup req.model_name with
  | none =>
    refine ⟨Or.inl rfl, by simp, ?_⟩
    intro md hmd
    cases hmd
  | some md0 =>
    cases hb : backend a.triton_url req with
    | ok res =>
      refine ⟨Or.inr rfl, by simp, ?_⟩
      intro md _
      refine ⟨rfl, ?_⟩
      intro msg hmsg
      cases hmsg
    | error e =>
      refine ⟨Or.inr rfl, by simp, ?_⟩
      intro md _
      refine ⟨rfl, ?_⟩
      intro msg hmsg
      have : e = msg := Except.error.inj hmsg
      subst this
      rfl

/-- Witness for C8: a coordinator knowing one model, whose single backend
attempt fails, raises 500 after exactly one call to the fixed Triton url. -/
theorem route_inference_single_backend_witness :
    ((Agent.mk "http://triton-server:8000" [("text_classifier", ⟨["INPUT"], ["OUTPUT"], "python"⟩)]).route_inference
        (fun _ _ => .error "connection refused")
        ⟨"text_classifier", [], none⟩).2 = ["http://triton-server:8000"] ∧
    ((Agent.mk "http://triton-server:8000" [("text_classifier", ⟨["INPUT"], ["OUTPUT"], "python"⟩)]).route_inference
        (fun _ _ => .error "connection refused")
        ⟨"text_classifier", [], none⟩).1 =
      .error ⟨500, "Inference failed: " ++ "connection refused"⟩ := by
  have h := (route_inference_single_backend
    (Agent.mk "http://triton-server:8000"
      [("text_classifier", ⟨["INPUT"], ["OUTPUT"], "python"⟩)])
    (fun _ _ => .error "connection refused")
    ⟨"text_classifier", [], none⟩).2.2
    ⟨["INPUT"], ["OUTPUT"], "python"⟩ rfl
  exact ⟨h.1, h.2 "connection refused" rfl⟩

/-- Embedded from the coordinator app.py: the health response body. -/
structure HealthResponse where
  status : String
  agent : String
deriving DecidableEq

/-- Embedded from the coordinator app.py, the health endpoint: it returns the
constant body with status healthy and agent inference-coordinator, reading
neither the agent state nor the backend; no backend call is recorded. -/
def healthHandler (a : Agent)
    (backend : String → InferenceRequest → Except String BackendResult) :
    HealthResponse × List String :=
  (⟨"healthy", "inference-coordinator"⟩, [])

/-- C9: the health endpoint unconditionally reports status healthy: its
response is identical for every agent state and every backend, it never
issues a backend probe, so the health it reports is independent of whether
any target is reachable or any model is loaded. -/
theorem health_unconditional :
    ∀ (a₁ a₂ : Agent)
      (b₁ b₂ : String → InferenceRequest → Except String BackendResult),
      healthHandler a₁ b₁ = healthHandler a₂ b₂ ∧
      (healthHandler a₁ b₁).1.status = "healthy" ∧
      (healthHandler a₁ b₁).2 = [] := by
  intro a₁ a₂ b₁ b₂
  exact ⟨rfl, rfl, rfl⟩

/-- Embedded from the coordinator app.py: a Python dict assignment, replacing
the value in place when the key exists and appending otherwise. -/
def dictInsert (k : String) (v : ModelMetadata)
    (l : List (String × ModelMetadata)) : List (String × ModelMetadata) :=
  if l.any (fun p => p.1 == k) then
    l.map (fun p => if p.1 == k then (k, v) else p)
  else l ++ [(k, v)]

/-- Embedded from the coordinator app.py, the discovery loop inside the
initialization routine: query metadata for each model of the repository
index, adding entries one by one; the first metadata exception aborts the
loop, keeping the entries already added. -/
def addModelsUntilError (md : String → Except String ModelMetadata) :
    List String → List (String × ModelMetadata) →
      List (String × ModelMetadata)
  | [], acc => acc
  | m :: rest, acc =>
    match md m with
    | .error _ => acc
    | .ok v => addModelsUntilError md rest (dictInsert m v acc)

/-- Embedded from the coordinator app.py, the initialization routine run by
the startup hook: fetch the model repository index and the metadata of each
model; any exception is caught, logged and swallowed, leaving whatever part
of the catalog was built before the failure. -/
def Agent.discoverModels (a : Agent) (index : Except String (List String))
    (md : String → Except String ModelMetadata) : Agent :=
  match index with
  | .error _ => a
  | .ok models => ⟨a.triton_url, addModelsUntilError md models a.model_metadata⟩

/-- Embedded from the coordinator app.py: the global agent instance,
constructed with the fixed Triton url and an empty catalog. -/
def coordinator : Agent := ⟨"http://triton-server:8000", []⟩

/-- Embedded from the coordinator app.py: the models endpoint, listing the
names in the catalog; it makes no backend call. -/
def listModelsHandler (a : Agent) : List String × List String :=
  (a.model_metadata.map Prod.fst, [])

/-- Embedded from the coordinator app.py: the request kinds the process
serves after startup. -/
inductive CoordRequest
  | inferReq (req : InferenceRequest)
  | listModels
  | healthCheck
deriving DecidableEq

/-- Embedded from the coordinator app.py: process the requests arriving after
startup, threading the agent state each handler leaves behind (none of the
handlers assigns to model_metadata in the source). -/
def runRequests (backend : String → InferenceRequest → Except String BackendResult) :
    List CoordRequest → Agent → Agent
  | [], a => a
  | q :: rest, a =>
    match q with
    | .inferReq req =>
      runRequests backend rest
        (match a.route_inference backend req with | _ => a)
    | .listModels =>
      runRequests backend rest (match listModelsHandler a with | _ => a)
    | .healthCheck =>
      runRequests backend rest (match healthHandler a backend with | _ => a)

theorem dictInsert_mem {k : String} {v : ModelMetadata}
    {l : List (String × ModelMetadata)} {p : String × ModelMetadata}
    (h : p ∈ dictInsert k v l) : p = (k, v) ∨ p ∈ l := by
  unfold dictInsert at h
  by_cases hc : l.any (fun p => p.1 == k) = true
  · rw [hc] at h
    simp only [if_true] at h
    obtain ⟨q, hq, hqe⟩ := List.mem_map.mp h
    by_cases hk : (q.1 == k) = true
    · rw [hk] at hqe
      simp only [if_true] at hqe
      exact Or.inl hqe.symm
    · have hk2 : (q.1 == k) = false := by simpa using hk
      rw [hk2] at hqe
      simp only [Bool.false_eq_true, if_false] at hqe
      exact Or.inr (hqe ▸ hq)
  · have hc2 : l.any (fun p => p.1 == k) = false := Bool.eq_false_iff.mpr hc
    rw [hc2] at h
    simp only [Bool.false_eq_true, if_false] at h
    rcases List.mem_append.mp h with h1 | h1
    · exact Or.inr h1
    · simp only [List.mem_singleton] at h1
      exact Or.inl h1

theorem addModelsUntilError_sound
    (md : String → Except String ModelMetadata) :
    ∀ (models : List String) (acc : List (String × ModelMetadata)),
      (∀ p ∈ acc, md p.1 = .ok p.2) →
      ∀ p ∈ addModelsUntilError md models acc, md p.1 = .ok p.2 := by
  intro models
  induction models with
  | nil =>
    intro acc hacc p hp
    exact hacc p hp
  | cons m rest ih =>
    intro acc hacc p hp
    unfold addModelsUntilError at hp
    cases hm : md m with
    | error e =>
      rw [hm] at hp
      exact hacc p hp
    | ok v =>
      rw [hm] at hp
      refine ih (dictInsert m v acc) ?_ p hp
      intro q hq
      rcases dictInsert_mem hq with h1 | h1
      · rw [h1]
        exact hm
      · exact hacc q h1

theorem runRequests_metadata
    (backend : String → InferenceRequest → Except String BackendResult) :
    ∀ (qs : List CoordRequest) (a : Agent),
      (runRequests backend qs a).model_metadata = a.model_metadata := by
  intro qs
  induction qs with
  | nil => intro a; rfl
  | cons q rest ih =>
    intro a
    cases q with
    | inferReq req => exact ih a
    | listModels => exact ih a
    | healthCheck => exact ih a

/-- C10 (amended): model discovery runs once, in the startup hook; no request
handler mutates the catalog afterwards, so the models endpoint returns the
startup name list for the whole process lifetime and a model absent from the
startup catalog is rejected by the infer endpoint with 404 no matter what the
backend now serves; when the repository index call itself throws, the
swallowed exception leaves the catalog empty, and in general a discovery
failure keeps exactly the entries added before it, each backed by a
successful metadata call. -/
theorem startup_discovery_invariants (index : Except String (List String))
    (md : String → Except String ModelMetadata)
    (backend : String → InferenceRequest → Except String BackendResult) :
    (∀ qs : List CoordRequest,
      (runRequests backend qs (coordinator.discoverModels index md)).model_metadata =
        (coordinator.discoverModels index md).model_metadata) ∧
    (∀ qs : List CoordRequest,
      (listModelsHandler
          (runRequests backend qs (coordinator.discoverModels index md))).1 =
        (listModelsHandler (coordinator.discoverModels index md)).1) ∧
    (∀ req : InferenceRequest,
      (coordinator.discoverModels index md).model_metadata.lookup req.model_name
          = none →
      ((coordinator.discoverModels index md).route_inference backend req).1 =
        .error ⟨404, "Model " ++ req.model_name ++ " not found"⟩) ∧
    (∀ e, index = .error e →
      (coordinator.discoverModels index md).model_metadata = []) ∧
    (∀ p ∈ (coordinator.discoverModels index md).model_metadata,
      md p.1 = .ok p.2) := by
  refine ⟨?_, ?_, ?_, ?_, ?_⟩
  · intro qs
    exact runRequests_metadata backend qs _
  · intro qs
    unfold listModelsHandler
    rw [runRequests_metadata backend qs _]
  · intro req hl
    unfold Agent.route_inference
    rw [hl]
  · intro e he
    rw [he]
    rfl
  · intro p hp
    cases hidx : index with
    | error e =>
      rw [hidx] at hp
      unfold Agent.discoverModels at hp
      simp only at hp
      cases hp
    | ok models =>
      rw [hidx] at hp
      unfold Agent.discoverModels at hp
      simp only at hp
      exact addModelsUntilError_sound md models [] (by intro q hq; cases hq) p hp

/-- Metadata oracle of the C10 counterexample: the first model resolves, the
second probe throws. -/
def cexMd : String → Except String ModelMetadata :=
  fun n =>
    if n == "text_classifier" then .ok ⟨["INPUT"], ["OUTPUT"], "python"⟩
    else .error "metadata probe failed"

/-- Counterexample for C10 as stated: a discovery exception thrown by the
second metadata probe is swallowed, yet the catalog does not stay empty — it
keeps the entry added before the failure. -/
theorem startup_discovery_partial_cex :
    cexMd "resnet50" = .error "metadata probe failed" ∧
    (coordinator.discoverModels (.ok ["text_classifier", "resnet50"])
        cexMd).model_metadata =
      [("text_classifier", ⟨["INPUT"], ["OUTPUT"], "python"⟩)] ∧
    (coordinator.discoverModels (.ok ["text_classifier", "resnet50"])
        cexMd).model_metadata ≠ [] := by
  refine ⟨rfl, rfl, ?_⟩
  intro h
  cases h

/-- Witness for C10 (amended): at a concrete failing index and a concrete
unknown model, the discovery invariants instantiate. -/
theorem startup_discovery_invariants_witness :
    ((coordinator.discoverModels (.error "index unavailable") cexMd).model_metadata
        = []) ∧
    ((coordinator.discoverModels (.ok ["text_classifier", "resnet50"]) cexMd).route_inference
        (fun _ _ => .ok ⟨[("OUTPUT", [1])], 5⟩)
        ⟨"stable_diffusion", [], none⟩).1 =
      .error ⟨404, "Model " ++ "stable_diffusion" ++ " not found"⟩ := by
  constructor
  · exact (startup_discovery_invariants (.error "index unavailable") cexMd
      (fun _ _ => .ok ⟨[("OUTPUT", [1])], 5⟩)).2.2.2.1 "index unavailable" rfl
  · exact (startup_discovery_invariants (.ok ["text_classifier", "resnet50"])
      cexMd (fun _ _ => .ok ⟨[("OUTPUT", [1])], 5⟩)).2.2.1
      ⟨"stable_diffusion", [], none⟩ rfl

end Offload
